import Mathlib

/-!
Verification of the DailyPuzzleStats aggregation-and-rendering engine.

The definitions below are a shallow embedding of the data pipeline found in
the Vue components (`GamesPlayed.vue`, `GamesCalendar.vue`,
`GamesBreakdown.vue` and the unnamed time-series component): normalisation of
raw CSV rows, day-bucket construction over an enumerated date range,
cumulative running totals, pie/donut angular layout, calendar grid placement,
leaderboard ranking, and the nearest-band-center hover resolver.

Dates in the time-series pipeline are represented as integer day numbers: the
components parse `M/D/YYYY` strings with `d3.timeParse`, producing JS `Date`
values at local midnight, which are compared and keyed exclusively through
`getTime()` and advanced with `setDate(getDate() + 1)`; at day granularity
this is order-isomorphic to `Int` with successor `+ 1`.
-/

namespace DailyStats

/-- An activity record as built in `GamesPlayed.vue` lines 22–26: a parsed
calendar date (integer day number), a participant and a category. -/
structure Entry where
  date : Int
  person : String
  game : String
deriving DecidableEq

/-- `type DailyCount = { day: number; count: number }`. -/
structure DailyCount where
  day : Nat
  count : Nat
deriving DecidableEq

/-- `type Cumulative = { day: number; total: number }`. -/
structure Cumulative where
  day : Nat
  total : Nat
deriving DecidableEq

/-- `d3.extent(rawData, d => d.Date)[0]`: the minimum of a list of day
numbers (`d3.extent` scans the values once keeping the running minimum).
The default value stands for the `undefined` that `d3.extent` yields on an
empty list, which the callers never use. -/
def extentMin (l : List Int) : Int := (l.min?).getD 0

/-- `d3.extent(rawData, d => d.Date)[1]`: the maximum of a list of day
numbers. -/
def extentMax (l : List Int) : Int := (l.max?).getD 0

/-- The enumeration loop
`for (let dt = new Date(minDate); dt <= maxDate; dt.setDate(dt.getDate() + 1)) dates.push(new Date(dt))`:
every day from `lo` to `hi` inclusive. -/
def dateRange (lo hi : Int) : List Int :=
  (List.range (hi + 1 - lo).toNat).map (fun i : Nat => lo + (i : Int))

/-- The `dates` array of `GamesPlayed.vue` lines 29–33. -/
def dates (l : List Entry) : List Int :=
  dateRange (extentMin (l.map (·.date))) (extentMax (l.map (·.date)))

/-- `dates.map(d => ({ day: dateToDay.get(d.getTime())!, count: rawData.filter(r => r.Date.getTime() === d.getTime()).length }))`
(lines 36–44).  The `dateToDay` map sends the i-th enumerated date to `i + 1`;
that index is carried here as the counter argument, starting at 1. -/
def bucketsGo (l : List Entry) : Nat → List Int → List DailyCount
  | _, [] => []
  | i, d :: ds =>
    ⟨i, (l.filter (fun e => e.date = d)).length⟩ :: bucketsGo l (i + 1) ds

/-- The `dailyCounts` array of `GamesPlayed.vue` lines 41–44. -/
def dailyCounts (l : List Entry) : List DailyCount := bucketsGo l 1 (dates l)

/-- The running-sum loop of `GamesPlayed.vue` lines 45–49:
`let running = 0; dailyCounts.map(d => { running += d.count; return { day: d.day, total: running }; })`. -/
def cumulativeFrom (run : Nat) : List DailyCount → List Cumulative
  | [] => []
  | d :: ds => ⟨d.day, run + d.count⟩ :: cumulativeFrom (run + d.count) ds

/-- The `cumulative` array of `GamesPlayed.vue` lines 45–49. -/
def cumulative (l : List DailyCount) : List Cumulative := cumulativeFrom 0 l

/-! Helper lemmas about the date range and the bucket builder. -/

theorem mem_dateRange {lo hi d : Int} :
    d ∈ dateRange lo hi ↔ lo ≤ d ∧ d ≤ hi := by
  simp only [dateRange, List.mem_map, List.mem_range]
  constructor
  · rintro ⟨i, hi', rfl⟩
    omega
  · intro h
    exact ⟨(d - lo).toNat, by omega, by omega⟩

theorem nodup_dateRange (lo hi : Int) : (dateRange lo hi).Nodup := by
  exact List.Nodup.map (fun a b h => by omega) (List.nodup_range _)

theorem extentMin_le {l : List Int} {x : Int} (hx : x ∈ l) : extentMin l ≤ x := by
  obtain ⟨a, ha⟩ : ∃ a, l.min? = some a := by
    cases l with
    | nil => cases hx
    | cons y ys => exact ⟨_, List.min?_cons'⟩
  have h := List.le_min?_iff (fun a b c => le_min_iff) ha (x := a)
  simp only [extentMin, ha, Option.getD_some]
  exact (h.mp le_rfl) x hx

theorem extentMin_mem {l : List Int} (h : l ≠ []) : extentMin l ∈ l := by
  obtain ⟨a, ha⟩ : ∃ a, l.min? = some a := by
    cases l with
    | nil => exact absurd rfl h
    | cons y ys => exact ⟨_, List.min?_cons'⟩
  simpa [extentMin, ha] using List.min?_mem (fun a b => min_choice a b) ha

theorem le_extentMax {l : List Int} {x : Int} (hx : x ∈ l) : x ≤ extentMax l := by
  obtain ⟨a, ha⟩ : ∃ a, l.max? = some a := by
    cases l with
    | nil => cases hx
    | cons y ys => exact ⟨_, List.max?_cons'⟩
  have h := List.max?_le_iff (fun a b c => max_le_iff) ha (x := a)
  simp only [extentMax, ha, Option.getD_some]
  exact (h.mp le_rfl) x hx

theorem extentMax_mem {l : List Int} (h : l ≠ []) : extentMax l ∈ l := by
  obtain ⟨a, ha⟩ : ∃ a, l.max? = some a := by
    cases l with
    | nil => exact absurd rfl h
    | cons y ys => exact ⟨_, List.max?_cons'⟩
  simpa [extentMax, ha] using List.max?_mem (fun a b => max_choice a b) ha

theorem bucketsGo_map_day (l : List Entry) :
    ∀ (ds : List Int) (i : Nat),
      (bucketsGo l i ds).map (·.day) = List.range' i ds.length := by
  intro ds
  induction ds with
  | nil => intro i; rfl
  | cons d ds ih =>
    intro i
    simp only [bucketsGo, List.map_cons, List.length_cons, List.range'_succ, ih]

theorem bucketsGo_map_count (l : List Entry) :
    ∀ (ds : List Int) (i : Nat),
      (bucketsGo l i ds).map (·.count) =
        ds.map (fun d => (l.filter (fun e => e.date = d)).length) := by
  intro ds
  induction ds with
  | nil => intro i; rfl
  | cons d ds ih =>
    intro i
    simp only [bucketsGo, List.map_cons, ih]

theorem sum_indicator_not_mem {a : Int} :
    ∀ {ds : List Int}, a ∉ ds →
      (ds.map (fun d => if a = d then 1 else 0)).sum = 0 := by
  intro ds
  induction ds with
  | nil => intro _; rfl
  | cons d ds ih =>
    intro h
    have hne : a ≠ d := fun hd => h (hd ▸ List.mem_cons_self d ds)
    simp only [List.map_cons, List.sum_cons, if_neg hne, ih (fun hm => h (List.mem_cons_of_mem d hm))]

theorem sum_indicator_mem {a : Int} :
    ∀ {ds : List Int}, ds.Nodup → a ∈ ds →
      (ds.map (fun d => if a = d then 1 else 0)).sum = 1 := by
  intro ds
  induction ds with
  | nil => intro _ h; cases h
  | cons d ds ih =>
    intro hnd hm
    rcases List.mem_cons.mp hm with h | h
    · subst h
      have : a ∉ ds := (List.nodup_cons.mp hnd).1
      simp [sum_indicator_not_mem this]
    · have hne : a ≠ d := by
        rintro rfl
        exact (List.nodup_cons.mp hnd).1 h
      simp [if_neg hne, ih (List.nodup_cons.mp hnd).2 h]

theorem sum_map_add (f g : Int → Nat) :
    ∀ (ds : List Int),
      (ds.map (fun d => f d + g d)).sum = (ds.map f).sum + (ds.map g).sum := by
  intro ds
  induction ds with
  | nil => rfl
  | cons d ds ih => simp only [List.map_cons, List.sum_cons, ih]; omega

/-- Summing, over a duplicate-free set of days covering every entry, the
number of entries falling on each day recovers the number of entries. -/
theorem sum_counts_eq_length :
    ∀ (l : List Entry) (ds : List Int), ds.Nodup → (∀ e ∈ l, e.date ∈ ds) →
      (ds.map (fun d => (l.filter (fun e => e.date = d)).length)).sum = l.length := by
  intro l
  induction l with
  | nil =>
    intro ds _ _
    simp
  | cons e l ih =>
    intro ds hnd hall
    have step : ∀ d : Int,
        ((e :: l).filter (fun e' => e'.date = d)).length =
          (if e.date = d then 1 else 0) + (l.filter (fun e' => e'.date = d)).length := by
      intro d
      by_cases h : e.date = d
      · simp [List.filter_cons, h]
        omega
      · simp [List.filter_cons, h]
    calc (ds.map (fun d => ((e :: l).filter (fun e' => e'.date = d)).length)).sum
        = (ds.map (fun d => (if e.date = d then 1 else 0) +
            (l.filter (fun e' => e'.date = d)).length)).sum := by
          congr 1
          exact List.map_congr_left (fun d _ => step d)
      _ = (ds.map (fun d => if e.date = d then 1 else 0)).sum +
            (ds.map (fun d => (l.filter (fun e' => e'.date = d)).length)).sum :=
          sum_map_add _ _ ds
      _ = 1 + l.length := by
          rw [sum_indicator_mem hnd (hall e (List.mem_cons_self e l)),
            ih ds hnd (fun e' he' => hall e' (List.mem_cons_of_mem e he'))]
      _ = (e :: l).length := by simp [Nat.add_comm]

/-- C1: for every non-empty entry set, the day-bucket builder enumerates
every calendar day from the minimum entry date to the maximum entry date
inclusive, assigns contiguous 1-based day indexes, and the sum of all bucket
counts equals the number of entries; a dataset with a single entry yields
exactly one bucket with `dayIndex = 1` (and count 1). -/
theorem C1_day_bucket_builder (l : List Entry) (h : l ≠ []) :
    (∃ lo hi : Int, lo ∈ l.map (·.date) ∧ hi ∈ l.map (·.date) ∧
      (∀ e ∈ l, lo ≤ e.date ∧ e.date ≤ hi) ∧
      (∀ d : Int, d ∈ dates l ↔ (lo ≤ d ∧ d ≤ hi))) ∧
    (dailyCounts l).map (·.day) = List.range' 1 (dates l).length ∧
    ((dailyCounts l).map (·.count)).sum = l.length ∧
    (∀ e : Entry, l = [e] → dailyCounts l = [⟨1, 1⟩]) := by
  have hmapne : l.map (·.date) ≠ [] := by
    cases l with
    | nil => exact absurd rfl h
    | cons a l => simp
  refine ⟨⟨extentMin (l.map (·.date)), extentMax (l.map (·.date)),
    extentMin_mem hmapne, extentMax_mem hmapne, ?_, ?_⟩, ?_, ?_, ?_⟩
  · intro e he
    exact ⟨extentMin_le (List.mem_map_of_mem _ he), le_extentMax (List.mem_map_of_mem _ he)⟩
  · intro d
    exact mem_dateRange
  · exact bucketsGo_map_day l (dates l) 1
  · rw [dailyCounts, bucketsGo_map_count l (dates l) 1]
    refine sum_counts_eq_length l (dates l) (nodup_dateRange _ _) ?_
    intro e he
    exact mem_dateRange.mpr
      ⟨extentMin_le (List.mem_map_of_mem _ he), le_extentMax (List.mem_map_of_mem _ he)⟩
  · rintro e rfl
    have hdates : dates [e] = [e.date] := by
      simp [dates, extentMin, extentMax, List.min?_cons', List.max?_cons', dateRange,
        List.range_succ]
    rw [dailyCounts, hdates]
    simp [bucketsGo]

/-- Witness for C1 at the spec scenario: entries on days 1, 1 and 3 yield
buckets with indexes 1, 2, 3 and counts 2, 0, 1 summing to 3. -/
theorem C1_day_bucket_builder_witness :
    (([⟨1, "A", "Chess"⟩, ⟨1, "B", "Chess"⟩, ⟨3, "A", "Go"⟩] : List Entry) ≠ []) ∧
    ((dailyCounts [⟨1, "A", "Chess"⟩, ⟨1, "B", "Chess"⟩, ⟨3, "A", "Go"⟩]).map (·.count)).sum = 3 := by
  have h := C1_day_bucket_builder [⟨1, "A", "Chess"⟩, ⟨1, "B", "Chess"⟩, ⟨3, "A", "Go"⟩]
    (by decide)
  exact ⟨by decide, h.2.2.1⟩

/-! Facts about the cumulative aggregator. -/

theorem cumulativeFrom_length (run : Nat) (bs : List DailyCount) :
    (cumulativeFrom run bs).length = bs.length := by
  induction bs generalizing run with
  | nil => rfl
  | cons b bs ih => simp [cumulativeFrom, ih]

theorem cumulativeFrom_getD (bs : List DailyCount) :
    ∀ (run : Nat) (i : Nat), i < bs.length →
      (cumulativeFrom run bs).getD i ⟨0, 0⟩ =
        ⟨(bs.getD i ⟨0, 0⟩).day, run + (((bs.take (i + 1)).map (·.count)).sum)⟩ := by
  induction bs with
  | nil => intro run i h; cases h
  | cons b bs ih =>
    intro run i h
    cases i with
    | zero => simp [cumulativeFrom]
    | succ i =>
      have h' : i < bs.length := by simpa using h
      simp only [cumulativeFrom, List.getD_cons_succ, List.take_succ_cons, List.map_cons,
        List.sum_cons, ih (run + b.count) i h']
      congr 1
      omega

theorem cumulativeFrom_total_le (run : Nat) (bs : List DailyCount) :
    ∀ c ∈ cumulativeFrom run bs, run ≤ c.total := by
  induction bs generalizing run with
  | nil => intro c hc; cases hc
  | cons b bs ih =>
    intro c hc
    rcases List.mem_cons.mp hc with h | h
    · subst h; exact Nat.le_add_right run b.count
    · exact Nat.le_trans (Nat.le_add_right run b.count) (ih (run + b.count) c h)

theorem cumulativeFrom_totals_pairwise (run : Nat) (bs : List DailyCount) :
    ((cumulativeFrom run bs).map (·.total)).Pairwise (· ≤ ·) := by
  induction bs generalizing run with
  | nil => exact List.Pairwise.nil
  | cons b bs ih =>
    simp only [cumulativeFrom, List.map_cons, List.pairwise_cons]
    refine ⟨?_, ih (run + b.count)⟩
    intro t ht
    obtain ⟨c, hc, rfl⟩ := List.mem_map.mp ht
    exact cumulativeFrom_total_le (run + b.count) bs c hc

theorem cumulativeFrom_last (bs : List DailyCount) :
    ∀ run : Nat,
      ((cumulativeFrom run bs).map (·.total)).getLastD run =
        run + ((bs.map (·.count)).sum) := by
  induction bs with
  | nil => intro run; rfl
  | cons b bs ih =>
    intro run
    simp only [cumulativeFrom, List.map_cons, List.getLastD_cons, ih (run + b.count),
      List.sum_cons]
    omega

/-- C2: the cumulative aggregator emits one `CumulativeBucket` per input
bucket (same length, same day index) whose total is the prefix sum of the
counts up to and including that position; the totals are monotonically
non-decreasing, and the final total equals the sum of all bucket counts. -/
theorem C2_cumulative_prefix_sums (bs : List DailyCount) :
    (cumulative bs).length = bs.length ∧
    (∀ i : Nat, i < bs.length →
      ((cumulative bs).getD i ⟨0, 0⟩).day = (bs.getD i ⟨0, 0⟩).day ∧
      ((cumulative bs).getD i ⟨0, 0⟩).total = ((bs.take (i + 1)).map (·.count)).sum) ∧
    ((cumulative bs).map (·.total)).Pairwise (· ≤ ·) ∧
    ((cumulative bs).map (·.total)).getLastD 0 = (bs.map (·.count)).sum := by
  refine ⟨cumulativeFrom_length 0 bs, ?_, cumulativeFrom_totals_pairwise 0 bs, ?_⟩
  · intro i h
    rw [cumulative, cumulativeFrom_getD bs 0 i h]
    exact ⟨rfl, by simp⟩
  · rw [cumulative, cumulativeFrom_last bs 0]
    simp

/-- Witness for C2 at the spec scenario: counts `[2, 0, 1]` give cumulative
totals `[2, 2, 3]` with final total 3. -/
theorem C2_cumulative_prefix_sums_witness :
    ((0 : Nat) < 3) ∧
    ((cumulative [⟨1, 2⟩, ⟨2, 0⟩, ⟨3, 1⟩]).map (·.total)).getLastD 0 = 3 := by
  have h := C2_cumulative_prefix_sums [⟨1, 2⟩, ⟨2, 0⟩, ⟨3, 1⟩]
  exact ⟨by decide, by rw [h.2.2.2]; decide⟩

/-!
The unnamed animated time-series component (`src/unnamed/part_000`) runs the
same pipeline but guards against an empty row set (lines 55–78 and 86–89):
an empty load yields 30 zero buckets and fixed scale maxima of 10.
-/

/-- Lines 55–78 of the unnamed component: the daily/cumulative series, with
the fallback branch
`dailyCounts = Array.from({length: 30}, (_, i) => ({day: i + 1, count: 0}));`
`cumulative = dailyCounts.map(d => ({day: d.day, total: 0}));`
taken when `rawData.length` is zero. -/
def computeSeries (l : List Entry) : List DailyCount × List Cumulative :=
  if l.length > 0 then
    let dc := dailyCounts l
    (dc, cumulative dc)
  else
    let dc := (List.range 30).map (fun i => (⟨i + 1, 0⟩ : DailyCount))
    (dc, dc.map (fun d => (⟨d.day, 0⟩ : Cumulative)))

/-- `d3.max` over a list of natural numbers (running maximum scan). -/
def listMax (l : List Nat) : Nat := l.foldr max 0

/-- Line 86: `const yBarMax = rawData.length > 0 ? d3.max(dailyCounts, d => d.count)! : 10;`. -/
def yBarMaxOf (l : List Entry) : Nat :=
  if l.length > 0 then listMax ((computeSeries l).1.map (·.count)) else 10

/-- Line 88: `const yLineMax = rawData.length > 0 ? d3.max(cumulative, d => d.total)! : 10;`. -/
def yLineMaxOf (l : List Entry) : Nat :=
  if l.length > 0 then listMax ((computeSeries l).2.map (·.total)) else 10

/-- C9: on an empty loaded row set the animated chart computation produces
exactly 30 day buckets with day indexes 1..30 and all counts 0, a cumulative
series with all totals 0, and both vertical scale domain maxima equal to 10,
without going through the date-range enumeration branch. -/
theorem C9_empty_row_fallback :
    (computeSeries []).1.length = 30 ∧
    (computeSeries []).1.map (·.day) = List.range' 1 30 ∧
    (∀ b ∈ (computeSeries []).1, b.count = 0) ∧
    (computeSeries []).2.map (·.total) = List.replicate 30 0 ∧
    yBarMaxOf [] = 10 ∧ yLineMaxOf [] = 10 := by
  refine ⟨by decide, by decide, by decide, by decide, rfl, rfl⟩

/-!
The hover resolver of `GamesPlayed.vue` lines 186–190 and of the unnamed
component lines 205–209:
`const bisect = d3.bisector((d: number) => d).center; const idx = bisect(xCenters, mx);`
where `xCenters` is the strictly increasing list of band centers.  The
d3-array bisector for a numeric accessor is embedded below; rationals stand
for the floating-point coordinates.
-/

/-- The d3-array binary-search loop
`while (lo < hi) { const mid = (lo + hi) >>> 1; if (a[mid] < x) lo = mid + 1; else hi = mid; } return lo;`. -/
def bisectLeft (a : List ℚ) (x : ℚ) (lo hi : Nat) : Nat :=
  if _h : lo < hi then
    if a.getD ((lo + hi) / 2) 0 < x then bisectLeft a x ((lo + hi) / 2 + 1) hi
    else bisectLeft a x lo ((lo + hi) / 2)
  else lo
termination_by hi - lo
decreasing_by
  · omega
  · omega

/-- The d3-array `bisector(...).center` called with default bounds:
`const i = left(a, x, lo, hi - 1); return i > lo && delta(a[i - 1], x) > -delta(a[i], x) ? i - 1 : i;`
with `lo = 0`, `hi = a.length` and `delta(d, x) = d - x`. -/
def bisectCenter (a : List ℚ) (x : ℚ) : Nat :=
  let i := bisectLeft a x 0 (a.length - 1)
  if 0 < i ∧ a.getD (i - 1) 0 - x > -(a.getD i 0 - x) then i - 1 else i

theorem getD_of_lt_length {a : List ℚ} {i : Nat} (h : i < a.length) (d : ℚ) :
    a.getD i d = a[i] := by
  simp [List.getD_eq_getElem?_getD, List.getElem?_eq_getElem h]

/-- In a (weakly) sorted list, the elements strictly below `x` occupy exactly
the first `countP (· < x)` positions. -/
theorem sorted_countP_lt {x : ℚ} :
    ∀ {a : List ℚ}, a.Pairwise (· ≤ ·) →
      (∀ i, i < a.countP (fun v => v < x) → a.getD i 0 < x) ∧
      (∀ i, a.countP (fun v => v < x) ≤ i → i < a.length → ¬ (a.getD i 0 < x)) := by
  intro a
  induction a with
  | nil =>
    intro _
    exact ⟨fun i hi => by simp [List.countP_nil] at hi, fun i _ hi => by simp at hi⟩
  | cons v t ih =>
    intro hp
    obtain ⟨hv, ht⟩ := List.pairwise_cons.mp hp
    obtain ⟨ih1, ih2⟩ := ih ht
    by_cases hvx : v < x
    · have hc : (v :: t).countP (fun v => v < x) = t.countP (fun v => v < x) + 1 :=
        List.countP_cons_of_pos _ _ (by simpa using hvx)
      constructor
      · intro i hi
        cases i with
        | zero => simpa using hvx
        | succ i =>
          rw [List.getD_cons_succ]
          exact ih1 i (by omega)
      · intro i h1 h2
        cases i with
        | zero => omega
        | succ i =>
          rw [List.getD_cons_succ]
          exact ih2 i (by omega) (by simpa using h2)
    · have hzero : t.countP (fun v => v < x) = 0 := by
        rw [List.countP_eq_zero]
        intro y hy
        simp only [decide_eq_true_eq]
        intro hyx
        exact hvx (lt_of_le_of_lt (hv y hy) hyx)
      have hc : (v :: t).countP (fun v => v < x) = 0 := by
        rw [List.countP_cons_of_neg _ _ (by simpa using hvx), hzero]
      constructor
      · intro i hi
        omega
      · intro i _ h2
        cases i with
        | zero => simpa using hvx
        | succ i =>
          rw [List.getD_cons_succ]
          exact ih2 i (by omega) (by simpa using h2)

/-- A count characterisation: if the first `K` positions are below `x` and
the rest are not, then `countP (· < x) = K`. -/
theorem countP_lt_eq_of_split {x : ℚ} :
    ∀ {a : List ℚ} {K : Nat}, K ≤ a.length →
      (∀ i, i < K → a.getD i 0 < x) →
      (∀ i, K ≤ i → i < a.length → ¬ (a.getD i 0 < x)) →
      a.countP (fun v => v < x) = K := by
  intro a
  induction a with
  | nil =>
    intro K hK _ _
    have hK0 : K = 0 := by simpa using hK
    subst hK0
    simp
  | cons v t ih =>
    intro K hK h1 h2
    cases K with
    | zero =>
      rw [List.countP_eq_zero]
      intro y hy
      simp only [decide_eq_true_eq]
      obtain ⟨n, hn, rfl⟩ := List.mem_iff_getElem.mp hy
      have := h2 n (Nat.zero_le n) (by simpa using hn)
      rwa [getD_of_lt_length (by simpa using hn)] at this
    | succ K =>
      have hv : v < x := by simpa using h1 0 (Nat.succ_pos K)
      rw [List.countP_cons_of_pos _ _ (by simpa using hv)]
      rw [ih (by simpa using hK)
        (fun i hi => by simpa [List.getD_cons_succ] using h1 (i + 1) (by omega))
        (fun i hi hlen => by
          simpa [List.getD_cons_succ] using h2 (i + 1) (by omega) (by simpa using hlen))]

/-- The d3 left-bisect on a sorted array returns the rank of `x` clamped to
the search window `[lo, hi]`. -/
theorem bisectLeft_eq_clamp {x : ℚ} :
    ∀ (n : Nat) (a : List ℚ) (lo hi : Nat), a.Pairwise (· ≤ ·) →
      hi - lo ≤ n → lo ≤ hi → hi ≤ a.length →
      bisectLeft a x lo hi = max lo (min (a.countP (fun v => v < x)) hi) := by
  intro n
  induction n with
  | zero =>
    intro a lo hi _ hn hlohi _
    have : lo = hi := by omega
    rw [bisectLeft, dif_neg (by omega)]
    omega
  | succ n ihn =>
    intro a lo hi hp hn hlohi hhi
    by_cases h : lo < hi
    · rw [bisectLeft, dif_pos h]
      have hmid1 : lo ≤ (lo + hi) / 2 := by omega
      have hmid2 : (lo + hi) / 2 < hi := by omega
      have hmidlen : (lo + hi) / 2 < a.length := by omega
      by_cases hlt : a.getD ((lo + hi) / 2) 0 < x
      · rw [if_pos hlt]
        have hKmid : (lo + hi) / 2 < a.countP (fun v => v < x) := by
          by_contra hc
          exact (sorted_countP_lt hp).2 ((lo + hi) / 2) (by omega) hmidlen hlt
        rw [ihn a ((lo + hi) / 2 + 1) hi hp (by omega) (by omega) hhi]
        omega
      · rw [if_neg hlt]
        have hKmid : a.countP (fun v => v < x) ≤ (lo + hi) / 2 := by
          by_contra hc
          exact hlt ((sorted_countP_lt hp).1 ((lo + hi) / 2) (by omega))
        rw [ihn a lo ((lo + hi) / 2) hp (by omega) (by omega) (by omega)]
        omega
    · rw [bisectLeft, dif_neg h]
      omega

theorem strict_sorted_getD_lt {a : List ℚ} (hs : a.Pairwise (· < ·))
    {i j : Nat} (hij : i < j) (hj : j < a.length) : a.getD i 0 < a.getD j 0 := by
  rw [getD_of_lt_length (by omega), getD_of_lt_length hj]
  exact List.pairwise_iff_getElem.mp hs i j (by omega) hj hij

/-- C6 (amended): over a strictly increasing list of band centers, the hover
resolver maps an offset lying exactly at a band center to that band's index;
an offset exactly equidistant from two adjacent band centers resolves to the
higher of the two indexes. -/
theorem C6_hover_resolver_centers (a : List ℚ) (hs : a.Pairwise (· < ·)) :
    (∀ j, j < a.length → bisectCenter a (a.getD j 0) = j) ∧
    (∀ j, j + 1 < a.length →
      bisectCenter a ((a.getD j 0 + a.getD (j + 1) 0) / 2) = j + 1) := by
  have hple : a.Pairwise (· ≤ ·) := hs.imp le_of_lt
  constructor
  · intro j hj
    set x := a.getD j 0 with hx
    have hK : a.countP (fun v => v < x) = j := by
      refine countP_lt_eq_of_split (by omega) ?_ ?_
      · intro i hi
        exact strict_sorted_getD_lt hs hi hj
      · intro i hji hilen
        rcases Nat.eq_or_lt_of_le hji with h | h
        · subst h; exact lt_irrefl _
        · exact not_lt_of_lt (strict_sorted_getD_lt hs h hilen)
    have hi : bisectLeft a x 0 (a.length - 1) = j := by
      rw [bisectLeft_eq_clamp (a.length) a 0 (a.length - 1) hple (by omega) (by omega) (by omega),
        hK]
      omega
    rw [bisectCenter]
    simp only [hi]
    cases j with
    | zero => simp
    | succ j =>
      rw [if_neg]
      rintro ⟨-, habs⟩
      have hlt : a.getD j 0 < a.getD (j + 1) 0 := strict_sorted_getD_lt hs (by omega) hj
      simp only [Nat.add_sub_cancel] at habs
      rw [← hx] at habs
      have : x - x = 0 := sub_self x
      nlinarith [habs]
  · intro j hj
    set x := (a.getD j 0 + a.getD (j + 1) 0) / 2 with hx
    have hjj : a.getD j 0 < a.getD (j + 1) 0 := strict_sorted_getD_lt hs (by omega) hj
    have hjx : a.getD j 0 < x := by rw [hx]; linarith
    have hxj : x < a.getD (j + 1) 0 := by rw [hx]; linarith
    have hK : a.countP (fun v => v < x) = j + 1 := by
      refine countP_lt_eq_of_split (by omega) ?_ ?_
      · intro i hi
        rcases Nat.lt_succ_iff_lt_or_eq.mp hi with h | h
        · exact lt_trans (strict_sorted_getD_lt hs h (by omega)) hjx
        · subst h; exact hjx
      · intro i hji hilen
        rcases Nat.eq_or_lt_of_le hji with h | h
        · subst h; exact not_lt_of_lt hxj
        · exact not_lt_of_lt (lt_trans hxj (strict_sorted_getD_lt hs h hilen))
    have hi : bisectLeft a x 0 (a.length - 1) = j + 1 := by
      rw [bisectLeft_eq_clamp (a.length) a 0 (a.length - 1) hple (by omega) (by omega) (by omega),
        hK]
      omega
    rw [bisectCenter]
    simp only [hi]
    rw [if_neg]
    rintro ⟨-, habs⟩
    simp only [Nat.add_sub_cancel] at habs
    have hxval : a.getD j 0 - x = -(a.getD (j + 1) 0 - x) := by
      rw [hx]; ring
    rw [hxval] at habs
    exact lt_irrefl _ habs

/-- Witness for C6 (amended) at centers `[0, 2, 10]`: offset 2 (the second
band center) resolves to index 1, and the tie offset 1 between centers 0 and
2 resolves to the higher index 1. -/
theorem C6_hover_resolver_centers_witness :
    (([0, 2, 10] : List ℚ).Pairwise (· < ·)) ∧
    bisectCenter [0, 2, 10] 2 = 1 ∧
    bisectCenter [0, 2, 10] 1 = 1 := by
  have hs : (([0, 2, 10] : List ℚ).Pairwise (· < ·)) := by
    norm_num [List.pairwise_cons]
  have h := C6_hover_resolver_centers [0, 2, 10] hs
  refine ⟨hs, ?_, ?_⟩
  · have := h.1 1 (by norm_num)
    simpa using this
  · have := h.2 0 (by norm_num)
    norm_num at this
    simpa using this

/-- Counterexample to C6 as stated: at offset 1, exactly equidistant from the
adjacent band centers 0 (index 0) and 2 (index 1), the resolver returns the
higher index 1, not the lower index 0 claimed by the spec. -/
theorem C6_tie_breaks_high_counterexample :
    bisectCenter [0, 2] 1 = 1 ∧ (1 : Nat) ≠ 0 := by
  constructor
  · rw [bisectCenter]
    norm_num
    rw [bisectLeft]
    norm_num
    rw [bisectLeft]
    norm_num
  · decide

/-!
The normalizer.  `GamesCalendar.vue` lines 30–34 builds entries with
`Date: parseDate(d.Date) as Date` and `GamesPlayed.vue` line 23 with
`Date: parseDate(d.Date as string)!`; in both, `d3.timeParse` returns `null`
on a string that does not match `%m/%d/%Y`, and the cast / non-null assertion
keeps that `null` in the constructed entry — the row conversion function
always returns an object, so `d3.csv` never skips the row.  A possibly-null
parsed date is embedded as `Option Int`; the parser itself is d3 library
code and is kept as a parameter of which only success/failure is used.
-/

/-- A raw CSV record with the fixed column contract `Date`, `Person`, `Game`. -/
structure RawRow where
  dateField : String
  person : String
  game : String
deriving DecidableEq

/-- An entry as actually constructed by `loadData`: the date slot holds the
result of the (possibly failed) parse. -/
structure ParsedEntry where
  date : Option Int
  person : String
  game : String
deriving DecidableEq

/-- `raw.map(d => ({ Date: parseDate(d.Date) as Date, Person: d.Person, Game: d.Game }))`
(`GamesCalendar.vue` lines 30–34).  `parse` stands for
`d3.timeParse('%m/%d/%Y')`. -/
def loadRows (parse : String → Option Int) (raw : List RawRow) : List ParsedEntry :=
  raw.map (fun d => ⟨parse d.dateField, d.person, d.game⟩)

/-- C3 (evaluation at the failing input): a row whose `Date` fails to parse
is NOT dropped by the normalizer — it is mapped to an entry with a null
date that stays in the output sequence, so the output still has length 1.
The claim that such a record "does not appear in the output entry sequence"
is contradicted; downstream `Date.getTime()` calls on the null date then
throw, so the batch does fail. -/
theorem C3_malformed_row_retained :
    loadRows (fun _ => none) [⟨"not-a-date", "A", "Chess"⟩] = [⟨none, "A", "Chess"⟩] ∧
    (loadRows (fun _ => none) [⟨"not-a-date", "A", "Chess"⟩]).length = 1 :=
  ⟨rfl, rfl⟩

/-!
The pie/donut layout of `GamesBreakdown.vue` lines 88–92:
`const pie = d3.pie().sort(null).value(d => d.value); const arcs = pie(data);`.
In d3-shape, `pie.sort(null)` also clears the default descending value
comparator, so slices keep input order.  With the default `startAngle 0`,
`endAngle 2π` and `padAngle 0`, the d3-shape loop is
`sum = Σ { v | v > 0 }; k = sum ? (endAngle - startAngle) / sum : 0;`
`a1 = a0 + (v > 0 ? v * k : 0)` per slice.  Angles are embedded over ℚ with
the configured full angle (2π in the component) as a parameter `fullAngle`,
so the claim's "equals 2π within floating tolerance" becomes exact equality
with `fullAngle`.
-/

/-- One element of the `arcs` array: data key and value plus the assigned
start/end angles. -/
structure Slice where
  key : String
  value : ℚ
  startAngle : ℚ
  endAngle : ℚ
deriving DecidableEq

/-- `if ((v = +value(data[i], i, data)) > 0) sum += v;` — the positive-value
total used as the angular denominator. -/
def pieSum (data : List (String × ℚ)) : ℚ :=
  (data.map (fun p => if p.2 > 0 then p.2 else 0)).sum

/-- The angle-assignment loop:
`for (i = 0; i < n; ++i, a0 = a1) { a1 = a0 + (v > 0 ? v * k : 0); arcs[i] = {..., startAngle: a0, endAngle: a1}; }`. -/
def pieArcsGo (k : ℚ) : ℚ → List (String × ℚ) → List Slice
  | _, [] => []
  | a0, p :: rest =>
    ⟨p.1, p.2, a0, a0 + (if p.2 > 0 then p.2 * k else 0)⟩ ::
      pieArcsGo k (a0 + (if p.2 > 0 then p.2 * k else 0)) rest

/-- `pie(data)` with `sort(null)`: `k = sum ? fullAngle / sum : 0`, angles
accumulated from 0 in input order. -/
def pieArcs (fullAngle : ℚ) (data : List (String × ℚ)) : List Slice :=
  pieArcsGo (if pieSum data = 0 then 0 else fullAngle / pieSum data) 0 data

theorem pieArcsGo_keys (k : ℚ) :
    ∀ (data : List (String × ℚ)) (a0 : ℚ),
      (pieArcsGo k a0 data).map (fun s => (s.key, s.value)) = data := by
  intro data
  induction data with
  | nil => intro a0; rfl
  | cons p rest ih => intro a0; simp [pieArcsGo, ih]

theorem pieArcsGo_span (k : ℚ) :
    ∀ (data : List (String × ℚ)) (a0 : ℚ), ∀ s ∈ pieArcsGo k a0 data,
      s.endAngle - s.startAngle = (if s.value > 0 then s.value * k else 0) := by
  intro data
  induction data with
  | nil => intro a0 s hs; cases hs
  | cons p rest ih =>
    intro a0 s hs
    rcases List.mem_cons.mp hs with h | h
    · subst h; simp
    · exact ih _ s h

theorem pieArcsGo_chain (k : ℚ) :
    ∀ (data : List (String × ℚ)) (a0 : ℚ),
      List.Chain' (fun s t => s.endAngle = t.startAngle) (pieArcsGo k a0 data) := by
  intro data
  induction data with
  | nil => intro a0; exact List.chain'_nil
  | cons p rest ih =>
    intro a0
    rw [pieArcsGo, List.chain'_cons']
    refine ⟨?_, ih _⟩
    intro b hb
    cases rest with
    | nil => simp [pieArcsGo] at hb
    | cons q rest' =>
      rw [pieArcsGo] at hb
      simp only [List.head?_cons, Option.mem_some_iff] at hb
      subst hb
      rfl

theorem pieArcsGo_span_sum (k : ℚ) :
    ∀ (data : List (String × ℚ)) (a0 : ℚ),
      ((pieArcsGo k a0 data).map (fun s => s.endAngle - s.startAngle)).sum =
        pieSum data * k := by
  intro data
  induction data with
  | nil => intro a0; simp [pieArcsGo, pieSum]
  | cons p rest ih =>
    intro a0
    simp only [pieArcsGo, List.map_cons, List.sum_cons, ih, pieSum, List.map_cons,
      List.sum_cons]
    by_cases h : p.2 > 0
    · simp only [if_pos h]
      ring
    · simp only [if_neg h]
      ring

theorem pieArcsGo_head_start (k : ℚ) (p : String × ℚ) (rest : List (String × ℚ)) (a0 : ℚ) :
    ((pieArcsGo k a0 (p :: rest)).map (·.startAngle)).headD 0 = a0 := by
  simp [pieArcsGo]

theorem pieArcsGo_last_end (k : ℚ) :
    ∀ (data : List (String × ℚ)) (a0 : ℚ),
      ((pieArcsGo k a0 data).map (·.endAngle)).getLastD a0 = a0 + pieSum data * k := by
  intro data
  induction data with
  | nil => intro a0; simp [pieArcsGo, pieSum]
  | cons p rest ih =>
    intro a0
    simp only [pieArcsGo, List.map_cons, List.getLastD_cons, ih, pieSum, List.map_cons,
      List.sum_cons]
    by_cases h : p.2 > 0
    · simp only [if_pos h]
      ring
    · simp only [if_neg h]
      ring

/-- C5 (amended): for every `AggregatedCount` list with a positive total, the
pie layout keeps the slices in input order with no value-based reordering,
assigns each slice the contiguous angular span `value * (fullAngle / total)`
(zero for non-positive values), starts at angle 0, makes each slice start
where the previous one ends, ends at `fullAngle`, and the spans sum exactly
to the full angle (2π in the component). -/
theorem C5_pie_layout (fullAngle : ℚ) (data : List (String × ℚ))
    (hpos : 0 < pieSum data) :
    (pieArcs fullAngle data).map (fun s => (s.key, s.value)) = data ∧
    ((pieArcs fullAngle data).map (·.startAngle)).headD 0 = 0 ∧
    List.Chain' (fun s t => s.endAngle = t.startAngle) (pieArcs fullAngle data) ∧
    (∀ s ∈ pieArcs fullAngle data,
      s.endAngle - s.startAngle =
        (if s.value > 0 then s.value * (fullAngle / pieSum data) else 0)) ∧
    ((pieArcs fullAngle data).map (·.endAngle)).getLastD 0 = fullAngle ∧
    ((pieArcs fullAngle data).map (fun s => s.endAngle - s.startAngle)).sum = fullAngle := by
  have hne : pieSum data ≠ 0 := ne_of_gt hpos
  have hk : (if pieSum data = 0 then 0 else fullAngle / pieSum data) =
      fullAngle / pieSum data := if_neg hne
  refine ⟨pieArcsGo_keys _ data 0, ?_, pieArcsGo_chain _ data 0, ?_, ?_, ?_⟩
  · cases data with
    | nil => simp [pieSum] at hpos
    | cons p rest => exact pieArcsGo_head_start _ p rest 0
  · intro s hs
    have := pieArcsGo_span (if pieSum data = 0 then 0 else fullAngle / pieSum data)
      data 0 s hs
    rwa [hk] at this
  · rw [pieArcs, hk, pieArcsGo_last_end]
    field_simp
  · rw [pieArcs, hk, pieArcsGo_span_sum]
    field_simp

/-- Witness for C5 (amended) at the spec scenario `[{Chess,2},{Go,1}]` with
`fullAngle = 3`: the spans sum to the full angle and slice order is
preserved; Chess spans two thirds of the circle starting at 0 (`[0, 4π/3)`
when the full angle is 2π). -/
theorem C5_pie_layout_witness :
    0 < pieSum [("Chess", 2), ("Go", 1)] ∧
    ((pieArcs 3 [("Chess", 2), ("Go", 1)]).map
      (fun s => s.endAngle - s.startAngle)).sum = 3 ∧
    (pieArcs 3 [("Chess", 2), ("Go", 1)]).map (fun s => (s.key, s.value)) =
      [("Chess", 2), ("Go", 1)] := by
  have hpos : 0 < pieSum [("Chess", 2), ("Go", 1)] := by norm_num [pieSum]
  have h := C5_pie_layout 3 [("Chess", 2), ("Go", 1)] hpos
  exact ⟨hpos, h.2.2.2.2.2, h.1⟩

/-- Counterexample to C5 as stated: on the non-empty list `[("A", 0)]` the
total of positive values is 0, d3's `k = sum ? ... : 0` guard makes every
span 0, and the spans sum to 0 rather than to the full angle (here 7). -/
theorem C5_zero_total_counterexample :
    ((pieArcs 7 [("A", 0)]).map (fun s => s.endAngle - s.startAngle)).sum = 0 ∧
    (0 : ℚ) ≠ 7 := by
  constructor
  · norm_num [pieArcs, pieSum, pieArcsGo]
  · norm_num

/-!
The calendar heatmap of `GamesCalendar.vue`.  Here entries carry structured
dates, matching the `getFullYear()` / `getMonth()` (0-based) / `getDate()`
accessors used by `drawCalendar`; two JS `Date` values at midnight have
equal `getTime()` exactly when these three components agree, and
`getTime()` order is the lexicographic order on them.
-/

/-- A calendar date as decomposed by `drawCalendar`: year, 0-based month,
1-based day of month. -/
structure CalDate where
  year : Int
  month : Nat
  day : Nat
deriving DecidableEq

/-- The `getTime()` order on midnight dates: lexicographic on
(year, month, day). -/
def CalDate.before (a b : CalDate) : Prop :=
  a.year < b.year ∨ (a.year = b.year ∧
    (a.month < b.month ∨ (a.month = b.month ∧ a.day < b.day)))

instance (a b : CalDate) : Decidable (a.before b) :=
  decidable_of_iff
    (a.year < b.year ∨ (a.year = b.year ∧
      (a.month < b.month ∨ (a.month = b.month ∧ a.day < b.day)))) Iff.rfl

theorem CalDate.before_irrefl (a : CalDate) : ¬ a.before a := by
  simp only [CalDate.before]
  omega

theorem CalDate.before_asymm {a b : CalDate} (h : a.before b) : ¬ b.before a := by
  simp only [CalDate.before] at h ⊢
  omega

/-- `type Entry = { Date: Date; Person: string; Game: string }` of
`GamesCalendar.vue`. -/
structure CEntry where
  date : CalDate
  person : String
  game : String
deriving DecidableEq

/-- `const first = entries[0].Date; const year = first.getFullYear(); const month = first.getMonth();`
(drawCalendar lines 74–76): the (year, month) pair the whole grid is built
from. -/
def displayedMonth (entries : List CEntry) (h : entries ≠ []) : Int × Nat :=
  ((entries.head h).date.year, (entries.head h).date.month)

/-- Spec-side definition, from the words of §4.6: "the month of the earliest
entry in the filtered set" — the minimum entry date in calendar order. -/
def specEarliestDate (entries : List CEntry) (h : entries ≠ []) : CalDate :=
  entries.foldl (fun acc e => if e.date.before acc then e.date else acc)
    ((entries.head h).date)

theorem foldl_earliest_fixed (d0 : CalDate) :
    ∀ (l : List CEntry), (∀ e ∈ l, ¬ e.date.before d0) →
      l.foldl (fun acc e => if e.date.before acc then e.date else acc) d0 = d0 := by
  intro l
  induction l with
  | nil => intro _; rfl
  | cons e l ih =>
    intro hall
    have hne : ¬ e.date.before d0 := hall e (List.mem_cons_self e l)
    simp only [List.foldl_cons, if_neg hne]
    exact ih (fun e' he' => hall e' (List.mem_cons_of_mem e he'))

/-- C4 (amended): the calendar layout's displayed month is the (year, month)
of the FIRST entry of the filtered set in input order; whenever the filtered
entries are sorted ascending by calendar date (as in a chronologically
ordered CSV), this coincides with the month of the earliest entry, but not
in general. -/
theorem C4_displayed_month_is_first_entry (entries : List CEntry) (h : entries ≠ []) :
    displayedMonth entries h =
      ((entries.head h).date.year, (entries.head h).date.month) ∧
    (entries.Pairwise (fun a b => a.date.before b.date ∨ a.date = b.date) →
      displayedMonth entries h =
        ((specEarliestDate entries h).year, (specEarliestDate entries h).month)) := by
  refine ⟨rfl, ?_⟩
  intro hsorted
  have hfix : specEarliestDate entries h = (entries.head h).date := by
    rw [specEarliestDate]
    refine foldl_earliest_fixed _ entries ?_
    intro e he
    cases entries with
    | nil => exact absurd rfl h
    | cons a l =>
      rcases List.mem_cons.mp he with hh | ht
      · subst hh
        exact CalDate.before_irrefl _
      · rcases (List.pairwise_cons.mp hsorted).1 e ht with hb | hb
        · exact CalDate.before_asymm hb
        · rw [List.head_cons, ← hb]
          exact CalDate.before_irrefl _
  rw [hfix]
  rfl

/-- Witness for C4 (amended): a date-sorted two-entry list, where the
displayed month is both the first entry's month and the earliest month. -/
theorem C4_displayed_month_is_first_entry_witness :
    (([⟨⟨2025, 0, 3⟩, "B", "Y"⟩, ⟨⟨2025, 1, 5⟩, "A", "X"⟩] : List CEntry) ≠ []) ∧
    displayedMonth [⟨⟨2025, 0, 3⟩, "B", "Y"⟩, ⟨⟨2025, 1, 5⟩, "A", "X"⟩] (by decide) =
      ((specEarliestDate [⟨⟨2025, 0, 3⟩, "B", "Y"⟩, ⟨⟨2025, 1, 5⟩, "A", "X"⟩]
        (by decide)).year,
       (specEarliestDate [⟨⟨2025, 0, 3⟩, "B", "Y"⟩, ⟨⟨2025, 1, 5⟩, "A", "X"⟩]
        (by decide)).month) := by
  refine ⟨by decide, ?_⟩
  exact (C4_displayed_month_is_first_entry _ (by decide)).2 (by decide)

/-- Counterexample to C4 as stated: with the first entry in February
(month 1) and a later-listed entry in January (month 0), the displayed month
is February — the first entry's month — while the earliest entry's month is
January. -/
theorem C4_first_not_earliest_counterexample :
    displayedMonth [⟨⟨2025, 1, 5⟩, "A", "X"⟩, ⟨⟨2025, 0, 3⟩, "B", "Y"⟩] (by decide) =
      ((2025 : Int), (1 : Nat)) ∧
    ((specEarliestDate [⟨⟨2025, 1, 5⟩, "A", "X"⟩, ⟨⟨2025, 0, 3⟩, "B", "Y"⟩]
        (by decide)).year,
     (specEarliestDate [⟨⟨2025, 1, 5⟩, "A", "X"⟩, ⟨⟨2025, 0, 3⟩, "B", "Y"⟩]
        (by decide)).month) = ((2025 : Int), (0 : Nat)) ∧
    ((2025 : Int), (1 : Nat)) ≠ ((2025 : Int), (0 : Nat)) := by
  refine ⟨by decide, by decide, by decide⟩

/-- `isLeapYear` per the Gregorian rule implemented by the JS `Date`
rollover `new Date(year, month + 1, 0).getDate()`. -/
def isLeapYear (y : Int) : Bool :=
  (y % 4 == 0 && y % 100 != 0) || y % 400 == 0

/-- `const daysInMonth = new Date(year, month + 1, 0).getDate();`
(line 77): the length of the (0-based) month `m` of year `y`. -/
def daysInMonth (y : Int) (m : Nat) : Nat :=
  if m = 1 then (if isLeapYear y then 29 else 28)
  else if m = 3 ∨ m = 5 ∨ m = 8 ∨ m = 10 then 30
  else 31

/-- One cell of the heatmap grid: day of month, grid row/column, entry
count. -/
structure CalendarCell where
  day : Nat
  row : Nat
  col : Nat
  count : Nat
deriving DecidableEq

/-- `d3.rollup(entries, v => v.length, d => d.Date.getTime())` followed by
`counts.get(ts) || 0`: the number of entries on a given calendar date. -/
def rollupCount (entries : List CEntry) (d : CalDate) : Nat :=
  (entries.filter (fun e => e.date = d)).length

/-- The cell loop of `drawCalendar` (lines 133–145):
`for (day = 1; day <= daysInMonth; day++) { slot = startDay + (day - 1); row = floor(slot / 7); col = slot % 7; cnt = counts.get(new Date(year, month, day).getTime()) || 0; }`.
`startDay` — the weekday of day 1, `new Date(year, month, 1).getDay()` — is
computed by the JS Date collaborator and supplied here as a parameter. -/
def calendarCells (startDay : Nat) (entries : List CEntry) (h : entries ≠ []) :
    List CalendarCell :=
  (List.range (daysInMonth (entries.head h).date.year (entries.head h).date.month)).map
    (fun k =>
      ⟨k + 1, (startDay + k) / 7, (startDay + k) % 7,
        rollupCount entries
          ⟨(entries.head h).date.year, (entries.head h).date.month, k + 1⟩⟩)

/-- `const maxCount = d3.max(Array.from(counts.values())) || 1;` (line 88):
the largest per-day group size over ALL entries (with the `|| 1` floor). -/
def maxCountOf (entries : List CEntry) : Nat :=
  if listMax (((entries.map (·.date)).dedup).map (fun d => rollupCount entries d)) = 0
  then 1
  else listMax (((entries.map (·.date)).dedup).map (fun d => rollupCount entries d))

theorem le_listMax {a : Nat} : ∀ {l : List Nat}, a ∈ l → a ≤ listMax l := by
  intro l
  induction l with
  | nil => intro h; cases h
  | cons b l ih =>
    intro h
    rcases List.mem_cons.mp h with h | h
    · subst h; exact Nat.le_max_left _ _
    · exact Nat.le_trans (ih h) (Nat.le_max_right _ _)

/-- C7: each day of the displayed month is placed at
`row = floor((startWeekday + day - 1) / 7)` and
`col = (startWeekday + day - 1) mod 7`, so `row * 7 + col` recovers the slot
`startWeekday + day - 1`, and distinct days occupy pairwise distinct
`(row, col)` cells. -/
theorem C7_calendar_grid_placement (startDay : Nat) (_hsd : startDay ≤ 6)
    (entries : List CEntry) (h : entries ≠ []) :
    (∀ c ∈ calendarCells startDay entries h,
      1 ≤ c.day ∧ c.row = (startDay + c.day - 1) / 7 ∧
      c.col = (startDay + c.day - 1) % 7 ∧
      c.row * 7 + c.col = startDay + c.day - 1) ∧
    (calendarCells startDay entries h).Pairwise
      (fun a b => ¬ (a.row = b.row ∧ a.col = b.col)) := by
  constructor
  · intro c hc
    obtain ⟨k, hk, rfl⟩ := List.mem_map.mp hc
    refine ⟨Nat.le_add_left 1 k, by simp, by simp, ?_⟩
    simp only
    omega
  · rw [calendarCells, List.pairwise_map]
    refine List.Pairwise.imp ?_ (List.pairwise_lt_range _)
    intro k1 k2 hlt
    simp only
    rintro ⟨hr, hc⟩
    omega

/-- Witness for C7 at `startWeekday = 3` and a single-entry January 2025
dataset. -/
theorem C7_calendar_grid_placement_witness :
    ((3 : Nat) ≤ 6) ∧
    (([⟨⟨2025, 0, 3⟩, "B", "Y"⟩] : List CEntry) ≠ []) ∧
    (calendarCells 3 [⟨⟨2025, 0, 3⟩, "B", "Y"⟩] (by decide)).Pairwise
      (fun a b => ¬ (a.row = b.row ∧ a.col = b.col)) := by
  refine ⟨by decide, by decide, ?_⟩
  exact (C7_calendar_grid_placement 3 (by decide) [⟨⟨2025, 0, 3⟩, "B", "Y"⟩] (by decide)).2

/-- C10: each produced cell counts exactly the entries dated on that
(year, month, day) of the displayed month; an entry dated outside the
displayed month matches no cell's date (so it is included in no cell's
count), yet its per-day group still bounds into the maximum used for the
color-scale domain. -/
theorem C10_cell_counts_scoped_to_month (startDay : Nat)
    (entries : List CEntry) (h : entries ≠ []) :
    (∀ c ∈ calendarCells startDay entries h,
      c.count = (entries.filter (fun e =>
        e.date = ⟨(entries.head h).date.year, (entries.head h).date.month, c.day⟩)).length) ∧
    (∀ e ∈ entries,
      (e.date.year ≠ (entries.head h).date.year ∨
       e.date.month ≠ (entries.head h).date.month) →
      ∀ c ∈ calendarCells startDay entries h,
        e.date ≠ ⟨(entries.head h).date.year, (entries.head h).date.month, c.day⟩) ∧
    (∀ e ∈ entries, rollupCount entries e.date ≤ maxCountOf entries) := by
  refine ⟨?_, ?_, ?_⟩
  · intro c hc
    obtain ⟨k, hk, rfl⟩ := List.mem_map.mp hc
    rfl
  · intro e he hne c hc heq
    rcases hne with hy | hm
    · exact hy (show e.date.year = (entries.head h).date.year from by rw [heq])
    · exact hm (show e.date.month = (entries.head h).date.month from by rw [heq])
  · intro e he
    have hmem : rollupCount entries e.date ∈
        (((entries.map (·.date)).dedup).map (fun d => rollupCount entries d)) := by
      refine List.mem_map_of_mem _ ?_
      rw [List.mem_dedup]
      exact List.mem_map_of_mem _ he
    have hle := le_listMax hmem
    have hpos : 1 ≤ rollupCount entries e.date := by
      have : e ∈ entries.filter (fun e' => e'.date = e.date) :=
        List.mem_filter.mpr ⟨he, by simp⟩
      have hlen := List.length_pos.mpr (List.ne_nil_of_mem this)
      exact hlen
    rw [maxCountOf]
    by_cases h0 :
        listMax (((entries.map (·.date)).dedup).map (fun d => rollupCount entries d)) = 0
    · omega
    · rw [if_neg h0]
      exact hle

/-- Witness for C10: a dataset headed by a January 2025 entry together with
three February entries on one day; the February group does not land in any
cell but dominates the color-scale maximum. -/
theorem C10_cell_counts_scoped_to_month_witness :
    (([⟨⟨2025, 0, 5⟩, "A", "X"⟩, ⟨⟨2025, 1, 7⟩, "B", "Y"⟩, ⟨⟨2025, 1, 7⟩, "C", "Y"⟩,
       ⟨⟨2025, 1, 7⟩, "D", "Y"⟩] : List CEntry) ≠ []) ∧
    (∀ e ∈ ([⟨⟨2025, 0, 5⟩, "A", "X"⟩, ⟨⟨2025, 1, 7⟩, "B", "Y"⟩, ⟨⟨2025, 1, 7⟩, "C", "Y"⟩,
       ⟨⟨2025, 1, 7⟩, "D", "Y"⟩] : List CEntry),
      rollupCount [⟨⟨2025, 0, 5⟩, "A", "X"⟩, ⟨⟨2025, 1, 7⟩, "B", "Y"⟩,
        ⟨⟨2025, 1, 7⟩, "C", "Y"⟩, ⟨⟨2025, 1, 7⟩, "D", "Y"⟩] e.date ≤
      maxCountOf [⟨⟨2025, 0, 5⟩, "A", "X"⟩, ⟨⟨2025, 1, 7⟩, "B", "Y"⟩,
        ⟨⟨2025, 1, 7⟩, "C", "Y"⟩, ⟨⟨2025, 1, 7⟩, "D", "Y"⟩]) := by
  refine ⟨by decide, ?_⟩
  exact (C10_cell_counts_scoped_to_month 0 _ (by decide)).2.2

/-!
The "Days Played" leaderboard of the second component in
`GamesCalendar.vue` (lines 286–312): distinct persons in first-seen order,
per-person sets of `toDateString()` values (which distinguish exactly the
calendar day), and a stable descending sort by value.  The JS `Array.sort`
comparator `(a, b) => b.value - a.value` together with the standard's
stability requirement is embedded as the stable `mergeSort` with the
Boolean order `b.value ≤ a.value` ("a may come before b").
-/

/-- `Array.from(new Set(entries.map(e => e.Person)))`: the distinct persons
in order of first occurrence. -/
def firstSeen : List String → List String
  | [] => []
  | x :: xs => x :: firstSeen (xs.filter (fun y => y ≠ x))
termination_by l => l.length
decreasing_by
  simp only [List.length_cons]
  exact Nat.lt_succ_of_le (List.length_filter_le _ xs)

/-- The per-person distinct-day count built by the `entries.reduce` loop:
the size of the `Set` of `toDateString()` values of that person's entries. -/
def distinctDays (entries : List CEntry) (p : String) : Nat :=
  ((entries.filter (fun e => e.person = p)).map (·.date)).dedup.length

/-- `players.map(player => ({player, value: daysSet.get(player)!.size}))`. -/
def preBoard (entries : List CEntry) : List (String × Nat) :=
  (firstSeen (entries.map (·.person))).map (fun p => (p, distinctDays entries p))

/-- The comparator `(a, b) => b.value - a.value` as the Boolean total
preorder "a may precede b": `b.value ≤ a.value`. -/
def boardLE (a b : String × Nat) : Bool := b.2 ≤ a.2

/-- `daysPlayed.sort((a, b) => b.value - a.value)` — a stable descending
sort. -/
def daysPlayedBoard (entries : List CEntry) : List (String × Nat) :=
  (preBoard entries).mergeSort boardLE

theorem boardLE_trans (a b c : String × Nat) :
    boardLE a b → boardLE b c → boardLE a c := by
  simp only [boardLE, decide_eq_true_eq]
  omega

theorem boardLE_total (a b : String × Nat) : boardLE a b || boardLE b a := by
  simp only [boardLE, Bool.or_eq_true, decide_eq_true_eq]
  omega

/-- C8: the distinct-days leaderboard assigns each listed participant the
number of distinct calendar days with at least one of their entries, lists
exactly the distinct participants (a permutation of the first-seen
participant list), is sorted descending by value, and within any value
class the first-seen participant order is preserved (stability). -/
theorem C8_days_played_leaderboard (entries : List CEntry) :
    (∀ pr ∈ daysPlayedBoard entries, pr.2 = distinctDays entries pr.1) ∧
    ((daysPlayedBoard entries).map (·.1)).Perm (firstSeen (entries.map (·.person))) ∧
    (daysPlayedBoard entries).Pairwise (fun a b => b.2 ≤ a.2) ∧
    (∀ v : Nat, (daysPlayedBoard entries).filter (fun pr => pr.2 = v) =
      (preBoard entries).filter (fun pr => pr.2 = v)) := by
  refine ⟨?_, ?_, ?_, ?_⟩
  · intro pr hpr
    have hmem : pr ∈ preBoard entries := List.mem_mergeSort.mp hpr
    obtain ⟨p, _, rfl⟩ := List.mem_map.mp hmem
    rfl
  · have hperm := (List.mergeSort_perm (preBoard entries) boardLE).map (·.1)
    have heq : (preBoard entries).map (·.1) = firstSeen (entries.map (·.person)) := by
      simp [preBoard, List.map_map, Function.comp_def]
    exact heq ▸ hperm
  · refine (List.sorted_mergeSort boardLE_trans boardLE_total (preBoard entries)).imp ?_
    intro a b hab
    simpa [boardLE] using hab
  · intro v
    have hall : ∀ pr ∈ (preBoard entries).filter (fun pr => pr.2 = v), pr.2 = v := by
      intro pr hpr
      simpa using List.of_mem_filter hpr
    have hpw : ((preBoard entries).filter (fun pr => pr.2 = v)).Pairwise
        (fun a b => boardLE a b) := by
      refine List.pairwise_of_forall_mem_list ?_
      intro a ha b hb
      simp only [boardLE, decide_eq_true_eq]
      rw [hall a ha, hall b hb]
    have hsub : List.Sublist ((preBoard entries).filter (fun pr => pr.2 = v))
        (daysPlayedBoard entries) :=
      List.sublist_mergeSort boardLE_trans boardLE_total hpw (List.filter_sublist _)
    have hsub2 : List.Sublist ((preBoard entries).filter (fun pr => pr.2 = v))
        ((daysPlayedBoard entries).filter (fun pr => pr.2 = v)) := by
      have h3 := hsub.filter (fun pr => pr.2 = v)
      rwa [List.filter_eq_self.mpr (fun a ha => by simpa using hall a ha)] at h3
    have hperm2 : List.Perm ((daysPlayedBoard entries).filter (fun pr => pr.2 = v))
        ((preBoard entries).filter (fun pr => pr.2 = v)) :=
      (List.mergeSort_perm (preBoard entries) boardLE).filter _
    exact (hsub2.eq_of_length hperm2.length_eq.symm).symm

/-- Witness for C8 at a concrete dataset: person A with three entries over
two distinct days and person B with one; the board is sorted descending and
the value class 1 keeps first-seen order. -/
theorem C8_days_played_leaderboard_witness :
    (daysPlayedBoard [⟨⟨2025, 0, 1⟩, "A", "g"⟩, ⟨⟨2025, 0, 1⟩, "A", "h"⟩,
        ⟨⟨2025, 0, 2⟩, "A", "g"⟩, ⟨⟨2025, 0, 3⟩, "B", "g"⟩]).Pairwise
      (fun a b => b.2 ≤ a.2) ∧
    (daysPlayedBoard [⟨⟨2025, 0, 1⟩, "A", "g"⟩, ⟨⟨2025, 0, 1⟩, "A", "h"⟩,
        ⟨⟨2025, 0, 2⟩, "A", "g"⟩, ⟨⟨2025, 0, 3⟩, "B", "g"⟩]).filter
      (fun pr => pr.2 = 1) =
    (preBoard [⟨⟨2025, 0, 1⟩, "A", "g"⟩, ⟨⟨2025, 0, 1⟩, "A", "h"⟩,
        ⟨⟨2025, 0, 2⟩, "A", "g"⟩, ⟨⟨2025, 0, 3⟩, "B", "g"⟩]).filter
      (fun pr => pr.2 = 1) := by
  have h := C8_days_played_leaderboard [⟨⟨2025, 0, 1⟩, "A", "g"⟩,
    ⟨⟨2025, 0, 1⟩, "A", "h"⟩, ⟨⟨2025, 0, 2⟩, "A", "g"⟩, ⟨⟨2025, 0, 3⟩, "B", "g"⟩]
  exact ⟨h.2.2.1, h.2.2.2 1⟩

end DailyStats
